import Mathlib

namespace Markitdown

/-!
Shallow embedding of the markitdown webapp conversion core:
`converter_app.py` (path resolution, status store, per-file job, worker pool
wiring) and `convert_to_markdown.py` (single-file conversion with retry, batch
conversion).  Pure data and filesystem facts are explicit parameters; wall-clock
timestamps are abstracted away (they never influence control flow).
-/

/-- Job lifecycle states stored in the `conversion_status` mapping
(`converter_app.py`: the `status` field is one of these four strings). -/
inductive JobState
  | Queued
  | Processing
  | Completed
  | Error
deriving DecidableEq, Repr

/-- One status record, as written by the routes and by `process_single_file`.
The Python dict also carries a wall-clock `timestamp`; it is write-only
metadata and is abstracted away here. -/
structure JobRecord where
  state : JobState
  message : String
deriving DecidableEq, Repr

/-- The filesystem facts consulted by the `/convert` route: `os.path.isfile`,
`os.path.isdir`, directory listings (what `os.scandir` enumerates, in listing
order), and the results of `glob.glob` on wildcard patterns (kept abstract;
only directory expansion of `dir/*.ext` patterns is modelled concretely). -/
structure FS where
  isFile : String → Bool
  isDir : String → Bool
  dirEntries : String → List String
  globMatch : String → List String
  globRecursive : String → List String

/-- Python `str.strip()` whitespace set. -/
def isPyStripSpace (c : Char) : Bool :=
  c == ' ' || c == '\t' || c == '\n' || c == '\r' || c == '\x0b' || c == '\x0c'

/-- Python `path.strip()` (line 455): drop leading and trailing whitespace. -/
def pyStrip (s : String) : String :=
  ⟨((s.data.dropWhile isPyStripSpace).reverse.dropWhile isPyStripSpace).reverse⟩

/-- Python `c in s` membership test for a single character. -/
def pyContainsChar (s : String) (c : Char) : Bool := s.data.contains c

/-- Python `s.endswith(suffix)`. -/
def pyEndsWith (s suffix : String) : Bool :=
  ((s.data.reverse.take suffix.data.length).reverse) == suffix.data

/-- Python `s.startswith(prefixStr)`. -/
def pyStartsWith (s prefixStr : String) : Bool :=
  s.data.take prefixStr.data.length == prefixStr.data

/-- Model of `os.path.join(dir, name)` for the patterns built in the directory branch. -/
def joinPath (dir name : String) : String := dir ++ "/" ++ name

/-- Whether a directory entry is matched by the glob pattern `*.ext`:
the name must end in `.ext`, and glob's `*` never matches a leading dot. -/
def matchesStarDotExt (ext : String) (name : String) : Bool :=
  (!pyStartsWith name ".") && pyEndsWith name ("." ++ ext)

/-- The fixed supported-extension patterns of the directory branch
(`converter_app.py` line 478: `for ext in ['*.pdf', '*.docx', '*.pptx']`). -/
def supportedExts : List String := ["pdf", "docx", "pptx"]

/-- Model of `glob.glob(os.path.join(path, "*.ext"))`: the entries directly inside
`dir` matching `*.ext`, as full joined paths, in listing order. -/
def globDirExt (fs : FS) (dir ext : String) : List String :=
  ((fs.dirEntries dir).filter (matchesStarDotExt ext)).map (joinPath dir)

/-- Directory expansion in `/convert` (lines 476-480): for each supported
pattern the glob matches are appended.  Note: the code applies no
`os.path.isfile` check to these matches (unlike the wildcard branch). -/
def dirExpand (fs : FS) (dir : String) : List String :=
  supportedExts.flatMap (fun ext => globDirExt fs dir ext)

/-- Test `'*' in path or '?' in path` (line 460). -/
def hasWildcard (p : String) : Bool := pyContainsChar p '*' || pyContainsChar p '?'

/-- Helper for `'**' in path`: two consecutive stars in the character list. -/
def hasDoubleStarChars : List Char → Bool
  | [] => false
  | [_] => false
  | a :: b :: rest => (a == '*' && b == '*') || hasDoubleStarChars (b :: rest)

/-- Test `'**' in path` (line 462). -/
def hasDoubleStar (p : String) : Bool := hasDoubleStarChars p.data

/-- Resolution of one raw entry of the `/convert` body (lines 454-480):
trim, skip blanks, wildcard branch (glob filtered by `isfile`), literal
existing file, existing directory (expanded, no file check), else dropped. -/
def resolveEntry (fs : FS) (path : String) : List String :=
  let p := pyStrip path
  if p = "" then []
  else if hasWildcard p then
    (if hasDoubleStar p then fs.globRecursive p else fs.globMatch p).filter fs.isFile
  else if fs.isFile p then [p]
  else if fs.isDir p then dirExpand fs p
  else []

/-- The `files_to_convert` list accumulated by the loop in `/convert` (lines 452-480):
per-entry resolutions concatenated in input order, occurrences preserved. -/
def filesToConvert (fs : FS) (paths : List String) : List String :=
  paths.flatMap (resolveEntry fs)

/-- The JSON body returned by `/convert` (lines 493-497):
`queued = len(files_to_convert)` and `files = files_to_convert`. -/
def convertResponse (fs : FS) (paths : List String) : Nat × List String :=
  ((filesToConvert fs paths).length, filesToConvert fs paths)

/-- Concrete filesystem for the duplicate-submission scenario: `a.pdf` is an
existing regular file, `missing.pdf` does not exist. -/
def fsDup : FS where
  isFile := fun p => p == "a.pdf"
  isDir := fun _ => false
  dirEntries := fun _ => []
  globMatch := fun _ => []
  globRecursive := fun _ => []

/-- Concrete filesystem for the directory-expansion scenario: `d` is a
directory whose single entry `sub.pdf` is itself a directory, not a file. -/
def fsSubdir : FS where
  isFile := fun _ => false
  isDir := fun p => p == "d"
  dirEntries := fun p => if p == "d" then ["sub.pdf"] else []
  globMatch := fun _ => []
  globRecursive := fun _ => []

/-- Outcome of the call `convert_file_to_markdown(file_path)` as seen by
`process_single_file`: either a normal return of `(success, message)` or a
raised exception with message `e`. -/
inductive ConvertOutcome
  | ret (success : Bool) (message : String)
  | exn (e : String)
deriving DecidableEq, Repr

/-- Terminal states are `Completed` and `Error`. -/
def JobState.isTerminal : JobState → Bool
  | JobState.Completed => true
  | JobState.Error => true
  | _ => false

/-- The sequence of status records `process_single_file` writes for its path
(`converter_app.py` lines 404-440): first `Processing`, then exactly one
terminal record; the `except` clause turns any raised exception into an
`Error` write, so the function itself never raises (it is total here). -/
def process_single_file (o : ConvertOutcome) : List JobRecord :=
  let processing : JobRecord := ⟨JobState.Processing, "Converting to Markdown..."⟩
  match o with
  | ConvertOutcome.ret true m => [processing, ⟨JobState.Completed, m⟩]
  | ConvertOutcome.ret false m => [processing, ⟨JobState.Error, m⟩]
  | ConvertOutcome.exn e => [processing, ⟨JobState.Error, "Error: " ++ e⟩]

/-!
Heap-and-references model of the shared `conversion_status` dict of dicts.
Every write in the source is of the form `conversion_status[path] = {...}`:
a *fresh* record object is allocated and the key is rebound; no record is
ever mutated in place.  `/clear` rebinds the global name to a new empty dict.
`/status` evaluates `jsonify(dict(conversion_status))` while holding the
lock: `dict(...)` copies the outer mapping (sharing the record objects) and
`jsonify` dereferences and serializes those records before the lock is
released.
-/

/-- The shared status store: a heap of record objects (addresses used so far
are those below `nextAddr`), and the dict binding each path to the address of
its current record. -/
structure StatusStore where
  heap : Nat → JobRecord
  nextAddr : Nat
  refs : String → Option Nat

/-- The initial empty store. -/
def StatusStore.empty : StatusStore :=
  ⟨fun _ => ⟨JobState.Queued, ""⟩, 0, fun _ => none⟩

/-- Upsert `conversion_status[path] = {...}`: allocate a fresh record object and
rebind the key to it. -/
def StatusStore.upsert (s : StatusStore) (p : String) (r : JobRecord) : StatusStore where
  heap := fun a => if a = s.nextAddr then r else s.heap a
  nextAddr := s.nextAddr + 1
  refs := fun q => if q = p then some s.nextAddr else s.refs q

/-- Route `/clear` (lines 507-512): `conversion_status = {}` rebinds the global to
a fresh empty dict; existing record objects stay in the heap but are no
longer referenced. -/
def StatusStore.clear (s : StatusStore) : StatusStore where
  heap := s.heap
  nextAddr := s.nextAddr
  refs := fun _ => none

/-- Dereference a reference map against a heap: the record values a reader
obtains for each path. -/
def readRecords (heap : Nat → JobRecord) (refs : String → Option Nat)
    (p : String) : Option JobRecord :=
  (refs p).map heap

/-- GET `/status` (lines 502-505): `jsonify(dict(conversion_status))`
evaluated inside the lock — the shallow-copied references are dereferenced
against the heap as it is at call time. -/
def StatusStore.statusSnapshot (s : StatusStore) : String → Option JobRecord :=
  readRecords s.heap s.refs

/-- The store mutations that exist in the source: an upsert (from `/convert`
or `process_single_file`) or a `/clear`. -/
inductive StoreOp
  | up (p : String) (r : JobRecord)
  | clr

/-- Apply one mutation to the store. -/
def applyOp (s : StatusStore) : StoreOp → StatusStore
  | StoreOp.up p r => s.upsert p r
  | StoreOp.clr => s.clear

/-- Apply a sequence of mutations in order. -/
def applyOps (s : StatusStore) (ops : List StoreOp) : StatusStore :=
  ops.foldl applyOp s

/-- Value-level (deep-copy) semantics of the same mutation history: the
record each path maps to is the one of its most recent upsert since the last
clear. -/
def specApply (m : String → Option JobRecord) : StoreOp → (String → Option JobRecord)
  | StoreOp.up q r => fun x => if x = q then some r else m x
  | StoreOp.clr => fun _ => none

/-- Value-level status after a mutation history, starting from `m`. -/
def specStatus (m : String → Option JobRecord) (ops : List StoreOp) :
    String → Option JobRecord :=
  ops.foldl specApply m

/-- Well-formedness: every referenced address was allocated. -/
def StatusStore.WF (s : StatusStore) : Prop :=
  ∀ p a, s.refs p = some a → a < s.nextAddr

/-- Constant `MAX_WORKERS = max(1, ((multiprocessing.cpu_count()/2) - 1))`
(`converter_app.py` line 19).  Python 3 `/` is true division, so the value is
a real number (a Python float), modelled exactly as a rational. -/
def MAX_WORKERS (cpuCount : Nat) : ℚ := max 1 ((cpuCount : ℚ) / 2 - 1)

/-- The formula the spec states: `max(1, floor(cpuCount / 2) - 1)`, an
integer. -/
def specMaxWorkers (cpuCount : Nat) : ℤ := max 1 (((cpuCount / 2 : Nat) : ℤ) - 1)

/-- Default `max_workers = min(multiprocessing.cpu_count(), len(file_paths))`
(`convert_to_markdown.py` lines 191-192), the batch-variant default. -/
def batchDefaultWorkers (cpuCount : Nat) (filePaths : List String) : Nat :=
  min cpuCount filePaths.length

/-!
The copy-with-retry prologue of `convert_file_to_markdown`
(`convert_to_markdown.py` lines 122-146): `shutil.copy2` is attempted once
per index in `range(max_retries)`; a transient error (message contains
"being used by another process" or "Permission denied") before the last
attempt sleeps `retry_delay` (initially 0.5, doubled each retry) and
retries; on the last attempt it degrades to a raw byte read/write fallback,
and only if that fallback also raises does the function return
`(False, diagnostic)`.  A non-transient `IOError`/`OSError` is re-raised and
caught by the function's outer `except Exception` (line 170), which also
returns `(False, diagnostic)` — nothing escapes the function.
-/

/-- What one `shutil.copy2` attempt does: succeed, raise a transient
lock/permission error, or raise a non-transient error with message `e`. -/
inductive AttemptResult
  | ok
  | transient
  | fatal (e : String)
deriving DecidableEq, Repr

/-- Environment of one conversion: the outcome of each copy attempt (by
attempt index) and whether the raw read/write fallback succeeds
(`Except.error e` models the fallback raising with message `e`). -/
structure CopyEnv where
  attemptResult : Nat → AttemptResult
  fallback : Except String Unit

/-- How the copy prologue ends. -/
inductive CopyPhase
  | copied
  | fallbackCopied
  | failed (message : String)
  | raisedErr (e : String)
deriving DecidableEq, Repr

/-- Constant `max_retries = 3` (line 123). -/
def max_retries : Nat := 3

/-- Constant `retry_delay = 0.5` (line 124), exact as a rational. -/
def initial_retry_delay : ℚ := 1 / 2

/-- The body of `for attempt in range(max_retries)`, over the list of
remaining attempt indices, carrying the current `retry_delay`; returns how
the copy phase ends together with the back-off delays slept, in order.  An
exhausted loop (empty list) falls through and the function proceeds as if
copied (unreachable from the real entry, where the last attempt always
breaks, returns, raises or takes the fallback). -/
def copyLoop (env : CopyEnv) : List Nat → ℚ → CopyPhase × List ℚ
  | [], _ => (CopyPhase.copied, [])
  | attempt :: rest, delay =>
    match env.attemptResult attempt with
    | AttemptResult.ok => (CopyPhase.copied, [])
    | AttemptResult.fatal e => (CopyPhase.raisedErr e, [])
    | AttemptResult.transient =>
      if attempt < max_retries - 1 then
        let r := copyLoop env rest (2 * delay)
        (r.1, delay :: r.2)
      else
        match env.fallback with
        | Except.ok _ => (CopyPhase.fallbackCopied, [])
        | Except.error e =>
          (CopyPhase.failed ("File is in use and cannot be accessed: " ++ e), [])

/-- The copy prologue as entered by `convert_file_to_markdown`. -/
def copyWithRetry (env : CopyEnv) : CopyPhase × List ℚ :=
  copyLoop env (List.range max_retries) initial_retry_delay

/-- The `(success, message)` return of `convert_file_to_markdown` as far as
the copy phase determines it: `none` means the function proceeds to the
conversion step; a raised non-transient error is caught by the outer
`except Exception` and becomes a failure return, never a raise. -/
def copyPhaseReturn : CopyPhase → Option (Bool × String)
  | CopyPhase.failed m => some (false, m)
  | CopyPhase.raisedErr e => some (false, "Error during conversion: " ++ e)
  | CopyPhase.copied => none
  | CopyPhase.fallbackCopied => none

/-- The all-attempts-locked, fallback-fails environment. -/
def envLocked : CopyEnv where
  attemptResult := fun _ => AttemptResult.transient
  fallback := Except.error "locked"

/-- Model of `batch_convert(file_paths, max_workers)` (`convert_to_markdown.py` lines
180-213).  The derived worker count defaults to
`min(multiprocessing.cpu_count(), len(file_paths))`;
`ProcessPoolExecutor(max_workers=...)` raises
`ValueError("max_workers must be greater than 0")` when the value is not
positive (documented standard-library validation, modelled as the error
branch).  Otherwise every path is converted and keyed by path in the result
mapping (completion order abstracted; a worker fault becomes a
`(False, diagnostic)` entry, already folded into `convertOne` here). -/
def batch_convert (cpuCount : Nat) (filePaths : List String)
    (maxWorkers : Option Nat) (convertOne : String → Bool × String) :
    Except String (List (String × (Bool × String))) :=
  let workers : Nat :=
    match maxWorkers with
    | some w => w
    | none => min cpuCount filePaths.length
  if workers = 0 then Except.error "max_workers must be greater than 0"
  else Except.ok (filePaths.map (fun p => (p, convertOne p)))

/-!
Worker-pool model for the global `executor = ThreadPoolExecutor(...)`
(`converter_app.py` line 402) and `executor.submit(process_single_file, p)`
(line 491).  `ThreadPoolExecutor` itself is standard-library code, not part
of this repository, so its scheduling semantics is modelled from the spec:
fixed capacity N, a FIFO admission queue, submission enqueues without
blocking, at most N jobs run simultaneously, and no job is dropped.
-/

/-- Pool state: FIFO queue of pending jobs, currently running jobs, finished
jobs, and the history of all submissions (jobs carry `Nat` identities). -/
structure PoolState where
  pending : List Nat
  running : List Nat
  finished : List Nat
  submitted : List Nat
deriving DecidableEq, Repr

/-- The idle pool at startup. -/
def PoolState.init : PoolState := ⟨[], [], [], []⟩

/-- Modelled from the spec: pool transitions.  `submit` enqueues with no
precondition (admission never blocks the caller), `start` moves the queue
head onto a worker only while fewer than N run, `finish` retires any running
job (completion order between running jobs is unconstrained). -/
inductive PoolStep (N : Nat) : PoolState → PoolState → Prop
  | submit (s : PoolState) (j : Nat) :
      PoolStep N s ⟨s.pending ++ [j], s.running, s.finished, s.submitted ++ [j]⟩
  | start (s : PoolState) (j : Nat) (rest : List Nat) :
      s.pending = j :: rest → s.running.length < N →
      PoolStep N s ⟨rest, s.running ++ [j], s.finished, s.submitted⟩
  | finish (s : PoolState) (j : Nat) (pre post : List Nat) :
      s.running = pre ++ j :: post →
      PoolStep N s ⟨s.pending, pre ++ post, s.finished ++ [j], s.submitted⟩

/-- States reachable from the idle pool. -/
def PoolReach (N : Nat) (s : PoolState) : Prop :=
  Relation.ReflTransGen (PoolStep N) PoolState.init s

/-- Pool invariant: never more than N running, and pending, running and
finished jobs together account for every submission exactly. -/
def PoolInv (N : Nat) (s : PoolState) : Prop :=
  s.running.length ≤ N ∧
  ∀ j, s.pending.count j + s.running.count j + s.finished.count j = s.submitted.count j

/-- The drained state after submitting, starting and finishing one job. -/
def poolFinal : PoolState := ⟨[], [], [0], [0]⟩

/-!
Interleaving model for the admission loop of `/convert` (lines 483-491) and
the jobs it spawns.  Per resolved path index i, the route performs the
Queued upsert (`uq i`, line 485) and then hands the job to the pool
(`sub i`, line 491); the job, once scheduled, performs the Processing upsert
(`proc i`, line 409) and a terminal upsert (`done i`, lines 421/427/434).
Jobs run on pool threads concurrently with the admission loop, so a trace is
any interleaving in which the admission events appear in program order, each
job performs a prefix of its two writes, and a job starts only after its
submission.
-/

/-- One status-store event of a `/convert` call with its jobs. -/
inductive Ev
  | uq (i : Nat)
  | sub (i : Nat)
  | proc (i : Nat)
  | done (i : Nat)
deriving DecidableEq, Repr

/-- The admission events of the loop, in program order: for each path index,
the Queued upsert immediately followed by the pool submission. -/
def adminSeq : Nat → List Ev
  | 0 => []
  | n + 1 => adminSeq n ++ [Ev.uq n, Ev.sub n]

/-- Events performed by the admission loop itself. -/
def isAdminEv : Ev → Bool
  | Ev.uq _ => true
  | Ev.sub _ => true
  | _ => false

/-- Events performed by job i. -/
def isJobEv (i : Nat) : Ev → Bool
  | Ev.proc j => j == i
  | Ev.done j => j == i
  | _ => false

/-- The two writes of job i, in order. -/
def jobSeq (i : Nat) : List Ev := [Ev.proc i, Ev.done i]

/-- Event `a` occurs strictly before any occurrence of `b` in `tr`: some split of
`tr` already contains `a` but not yet `b`. -/
def Precedes (tr : List Ev) (a b : Ev) : Prop :=
  ∃ pre suf, tr = pre ++ suf ∧ a ∈ pre ∧ b ∉ pre

/-- A complete-admission trace of one `/convert` call with n resolved paths:
the admission events form exactly `adminSeq n` in order (the call has
returned), each job in the batch has performed a prefix of its two writes,
jobs outside the batch nothing, and a job's first write happens only after
its submission.  The interleaving of job events between these constraints is
arbitrary (pool scheduling is modelled from the spec, the executor being
standard-library code). -/
structure ValidTrace (n : Nat) (tr : List Ev) : Prop where
  admin : tr.filter isAdminEv = adminSeq n
  jobs : ∀ i, ∃ k, tr.filter (isJobEv i) = (jobSeq i).take k
  jobsBound : ∀ i, n ≤ i → tr.filter (isJobEv i) = []
  started : ∀ i, Ev.proc i ∈ tr → Precedes tr (Ev.sub i) (Ev.proc i)

/-- The record written by the Queued upsert (line 485). -/
def queuedRecord : JobRecord := ⟨JobState.Queued, "Waiting to be processed"⟩

/-- The record written by the Processing upsert (line 409). -/
def processingRecord : JobRecord := ⟨JobState.Processing, "Converting to Markdown..."⟩

/-- Effect of one event on the status mapping, `pathOf i` being the path of
index i and `term i` the terminal record job i writes. -/
def applyEv (pathOf : Nat → String) (term : Nat → JobRecord)
    (st : String → Option JobRecord) : Ev → (String → Option JobRecord)
  | Ev.uq i => fun q => if q = pathOf i then some queuedRecord else st q
  | Ev.sub _ => st
  | Ev.proc i => fun q => if q = pathOf i then some processingRecord else st q
  | Ev.done i => fun q => if q = pathOf i then some (term i) else st q

/-- The status mapping after a trace, starting from the empty store. -/
def runTrace (pathOf : Nat → String) (term : Nat → JobRecord) (tr : List Ev) :
    String → Option JobRecord :=
  tr.foldl (applyEv pathOf term) (fun _ => none)

/-- Path assignment of the two-file counterexample batch. -/
def pathOfTwo : Nat → String := fun i => if i = 0 then "p1" else "p2"

/-- Terminal records of the counterexample jobs. -/
def termTwo : Nat → JobRecord := fun _ => ⟨JobState.Completed, "converted"⟩

/-- A valid trace in which job 0 runs to completion while the admission loop
is still submitting path 1. -/
def trTwo : List Ev := [Ev.uq 0, Ev.sub 0, Ev.proc 0, Ev.done 0, Ev.uq 1, Ev.sub 1]

/-- Claim C1 counterexample: submitting `["a.pdf", "a.pdf", "missing.pdf"]`
where `a.pdf` exists and `missing.pdf` does not yields `queued = 2` and
`files = ["a.pdf", "a.pdf"]`, not the claimed `1` and `["a.pdf"]`: the
`/convert` route performs no deduplication. -/
theorem C1_counterexample :
    convertResponse fsDup ["a.pdf", "a.pdf", "missing.pdf"] = (2, ["a.pdf", "a.pdf"]) ∧
    ¬ ((convertResponse fsDup ["a.pdf", "a.pdf", "missing.pdf"]).1 = 1 ∧
       (convertResponse fsDup ["a.pdf", "a.pdf", "missing.pdf"]).2 = ["a.pdf"]) := by
  decide

/-- Claim C1 (amended): the resolved work list preserves input order but is
not deduplicated — an existing regular file submitted n times appears n times
in the work list, and the accepted count equals n. -/
theorem C1_occurrences_preserved (fs : FS) (p : String) (n : Nat)
    (hstrip : pyStrip p = p) (hne : p ≠ "") (hw : hasWildcard p = false)
    (hf : fs.isFile p = true) :
    filesToConvert fs (List.replicate n p) = List.replicate n p ∧
    convertResponse fs (List.replicate n p) = (n, List.replicate n p) := by
  have hres : resolveEntry fs p = [p] := by
    simp [resolveEntry, hstrip, hne, hw, hf]
  have hmain : filesToConvert fs (List.replicate n p) = List.replicate n p := by
    induction n with
    | zero => rfl
    | succ m ih =>
      rw [List.replicate_succ, filesToConvert, List.flatMap_cons, hres]
      rw [filesToConvert] at ih
      rw [ih]
      rfl
  refine ⟨hmain, ?_⟩
  rw [convertResponse, hmain, List.length_replicate]

/-- Witness for C1 (amended), at `fs = fsDup`, `p = "a.pdf"`, `n = 2`. -/
theorem C1_occurrences_preserved_witness :
    filesToConvert fsDup (List.replicate 2 "a.pdf") = List.replicate 2 "a.pdf" ∧
    convertResponse fsDup (List.replicate 2 "a.pdf") = (2, List.replicate 2 "a.pdf") :=
  C1_occurrences_preserved fsDup "a.pdf" 2 (by decide) (by decide) (by decide) (by decide)

/-- Claim C7 counterexample: for directory `d` whose only entry `sub.pdf` is
itself a directory (not a regular file), resolution still returns
`["d/sub.pdf"]` — the directory branch applies no regular-file check, so
non-file matches are not excluded. -/
theorem C7_counterexample :
    resolveEntry fsSubdir "d" = ["d/sub.pdf"] ∧
    fsSubdir.isDir "d" = true ∧
    fsSubdir.isFile "d/sub.pdf" = false := by
  decide

/-- Claim C7 (amended): a directory entry expands non-recursively to exactly
the direct entries matched by the patterns `*.pdf`, `*.docx`, `*.pptx`
(name ends in the extension and does not start with a dot), with no
regular-file check on the matches. -/
theorem C7_dir_expansion (fs : FS) (dir q : String) :
    q ∈ dirExpand fs dir ↔
      ∃ n, n ∈ fs.dirEntries dir ∧ q = joinPath dir n ∧
        (matchesStarDotExt "pdf" n = true ∨ matchesStarDotExt "docx" n = true ∨
         matchesStarDotExt "pptx" n = true) := by
  simp only [dirExpand, supportedExts, globDirExt, List.flatMap_cons, List.flatMap_nil,
    List.append_nil, List.mem_append, List.mem_map, List.mem_filter]
  constructor
  · rintro (⟨n, ⟨hn, hm⟩, hq⟩ | ⟨n, ⟨hn, hm⟩, hq⟩ | ⟨n, ⟨hn, hm⟩, hq⟩)
    · exact ⟨n, hn, hq.symm, Or.inl hm⟩
    · exact ⟨n, hn, hq.symm, Or.inr (Or.inl hm)⟩
    · exact ⟨n, hn, hq.symm, Or.inr (Or.inr hm)⟩
  · rintro ⟨n, hn, hq, hm | hm | hm⟩
    · exact Or.inl ⟨n, ⟨hn, hm⟩, hq.symm⟩
    · exact Or.inr (Or.inl ⟨n, ⟨hn, hm⟩, hq.symm⟩)
    · exact Or.inr (Or.inr ⟨n, ⟨hn, hm⟩, hq.symm⟩)

/-- Claim C2: every execution of the per-file job writes exactly one terminal
record, the last write is terminal (never left in `Processing`), and the
terminal record is `Completed` with the collaborator message on success,
`Error` with the message on declared failure, and `Error` with a diagnostic
on a raised exception. -/
theorem C2_exactly_one_terminal_write (o : ConvertOutcome) :
    ((process_single_file o).filter (fun r => r.state.isTerminal)).length = 1 ∧
    (∃ r, (process_single_file o).getLast? = some r ∧ r.state.isTerminal = true ∧
      r.state ≠ JobState.Processing) ∧
    (∀ m, o = ConvertOutcome.ret true m →
      (process_single_file o).getLast? = some ⟨JobState.Completed, m⟩) ∧
    (∀ m, o = ConvertOutcome.ret false m →
      (process_single_file o).getLast? = some ⟨JobState.Error, m⟩) ∧
    (∀ e, o = ConvertOutcome.exn e →
      (process_single_file o).getLast? = some ⟨JobState.Error, "Error: " ++ e⟩) := by
  rcases o with ⟨success, m⟩ | e
  · cases success <;>
      simp [process_single_file, JobState.isTerminal]
  · simp [process_single_file, JobState.isTerminal]

/-- Witness for C2 at the successful outcome `ret true "ok"`. -/
theorem C2_witness :
    (process_single_file (ConvertOutcome.ret true "ok")).getLast? =
      some ⟨JobState.Completed, "ok"⟩ :=
  (C2_exactly_one_terminal_write (ConvertOutcome.ret true "ok")).2.2.1 "ok" rfl

theorem wf_empty : StatusStore.empty.WF := by
  intro p a h
  simp [StatusStore.empty] at h

theorem wf_applyOp (s : StatusStore) (op : StoreOp) (h : s.WF) : (applyOp s op).WF := by
  cases op with
  | up q r =>
    intro p a ha
    simp only [applyOp, StatusStore.upsert] at ha ⊢
    by_cases hp : p = q
    · simp [hp] at ha
      omega
    · simp [hp] at ha
      exact Nat.lt_succ_of_lt (h p a ha)
  | clr =>
    intro p a ha
    simp [applyOp, StatusStore.clear] at ha

theorem wf_applyOps (s : StatusStore) (ops : List StoreOp) (h : s.WF) :
    (applyOps s ops).WF := by
  induction ops generalizing s with
  | nil => exact h
  | cons op rest ih => exact ih (applyOp s op) (wf_applyOp s op h)

theorem nextAddr_le_applyOp (s : StatusStore) (op : StoreOp) :
    s.nextAddr ≤ (applyOp s op).nextAddr := by
  cases op <;> simp [applyOp, StatusStore.upsert, StatusStore.clear]

theorem nextAddr_le_applyOps (s : StatusStore) (ops : List StoreOp) :
    s.nextAddr ≤ (applyOps s ops).nextAddr := by
  induction ops generalizing s with
  | nil => exact Nat.le_refl _
  | cons op rest ih =>
    exact Nat.le_trans (nextAddr_le_applyOp s op) (ih (applyOp s op))

/-- Allocated record objects are never mutated: the heap below `nextAddr` is
stable under any later mutations. -/
theorem heap_stable (s : StatusStore) (ops : List StoreOp) (a : Nat)
    (ha : a < s.nextAddr) : (applyOps s ops).heap a = s.heap a := by
  induction ops generalizing s with
  | nil => rfl
  | cons op rest ih =>
    have h1 : (applyOp s op).heap a = s.heap a := by
      cases op with
      | up q r =>
        have hne : ¬ a = s.nextAddr := by omega
        simp only [applyOp, StatusStore.upsert]
        rw [if_neg hne]
      | clr => rfl
    have h2 : a < (applyOp s op).nextAddr :=
      Nat.lt_of_lt_of_le ha (nextAddr_le_applyOp s op)
    calc (applyOps s (op :: rest)).heap a
        = (applyOps (applyOp s op) rest).heap a := rfl
      _ = (applyOp s op).heap a := ih (applyOp s op) h2
      _ = s.heap a := h1

/-- One step of the refinement: the snapshot of the mutated store follows the
value-level semantics. -/
theorem snapshot_applyOp (s : StatusStore) (op : StoreOp) (hWF : s.WF) (p : String) :
    (applyOp s op).statusSnapshot p = specApply s.statusSnapshot op p := by
  cases op with
  | up q r =>
    simp only [applyOp, specApply, StatusStore.statusSnapshot, StatusStore.upsert, readRecords]
    by_cases hp : p = q
    · simp [hp]
    · simp only [if_neg hp]
      cases href : s.refs p with
      | none => rfl
      | some a =>
        have : a < s.nextAddr := hWF p a href
        simp [Option.map, if_neg (by omega : ¬ a = s.nextAddr)]
  | clr =>
    simp [applyOp, specApply, StatusStore.statusSnapshot, StatusStore.clear, readRecords]

/-- The refinement over a whole history. -/
theorem snapshot_applyOps (ops : List StoreOp) (s : StatusStore) (hWF : s.WF) (p : String) :
    (applyOps s ops).statusSnapshot p = specStatus s.statusSnapshot ops p := by
  induction ops generalizing s with
  | nil => rfl
  | cons op rest ih =>
    have step : ∀ q, (applyOp s op).statusSnapshot q = specApply s.statusSnapshot op q :=
      snapshot_applyOp s op hWF
    calc (applyOps s (op :: rest)).statusSnapshot p
        = specStatus (applyOp s op).statusSnapshot rest p := ih (applyOp s op) (wf_applyOp s op hWF)
      _ = specStatus (specApply s.statusSnapshot op) rest p := by
          have : (applyOp s op).statusSnapshot = specApply s.statusSnapshot op := funext step
          rw [this]
      _ = specStatus s.statusSnapshot (op :: rest) p := rfl

/-- Claim C4: the `/status` snapshot equals the value-level deep copy of the
mutation history at call time (all fields of each record come from the same
single write), and later store mutations cannot alter a snapshot already
handed out — even the shallow-copied reference map, dereferenced against the
*mutated* heap, still yields the records of snapshot time, because every
write allocates a fresh record object and never mutates one in place. -/
theorem C4_snapshot_deep_and_stable (ops more : List StoreOp) (p : String) :
    (applyOps StatusStore.empty ops).statusSnapshot p =
      specStatus StatusStore.empty.statusSnapshot ops p ∧
    readRecords (applyOps (applyOps StatusStore.empty ops) more).heap
        (applyOps StatusStore.empty ops).refs p =
      (applyOps StatusStore.empty ops).statusSnapshot p := by
  have hWF : (applyOps StatusStore.empty ops).WF :=
    wf_applyOps StatusStore.empty ops wf_empty
  refine ⟨snapshot_applyOps ops StatusStore.empty wf_empty p, ?_⟩
  simp only [StatusStore.statusSnapshot, readRecords]
  cases href : (applyOps StatusStore.empty ops).refs p with
  | none => rfl
  | some a =>
    have ha : a < (applyOps StatusStore.empty ops).nextAddr := hWF p a href
    simp [heap_stable (applyOps StatusStore.empty ops) more a ha]

/-- Claim C6: `/clear` atomically empties the mapping — a snapshot taken
right after a clear (no intervening writes) is empty for every path — and a
job upserting after the clear writes a fresh entry that subsequent snapshots
return. -/
theorem C6_clear_empties_and_allows_future_writes (s : StatusStore) (p : String)
    (r : JobRecord) :
    (∀ q, s.clear.statusSnapshot q = none) ∧
    (s.clear.upsert p r).statusSnapshot p = some r := by
  constructor
  · intro q
    rfl
  · simp [StatusStore.statusSnapshot, StatusStore.clear, StatusStore.upsert, readRecords]

/-- Claim C5 (code bug): on an odd CPU count such as 7, the code computes
`max(1, 7/2 - 1) = 2.5`, a non-integer (denominator 2), while the claimed
formula gives the integer `2`; the two disagree.  The float is then passed as
`ThreadPoolExecutor(max_workers=...)` and rendered into the page header.
The batch-variant part of the claim does hold: its default worker count is
`min(cpu_count, number of files)`. -/
theorem C5_float_capacity_on_odd_cpu :
    MAX_WORKERS 7 = 5 / 2 ∧
    (MAX_WORKERS 7).den = 2 ∧
    specMaxWorkers 7 = 2 ∧
    MAX_WORKERS 7 ≠ ((specMaxWorkers 7 : ℤ) : ℚ) ∧
    batchDefaultWorkers 7 ["a.pdf", "b.pdf"] = 2 := by
  refine ⟨?_, ?_, ?_, ?_, ?_⟩
  · unfold MAX_WORKERS
    norm_num
  · unfold MAX_WORKERS
    norm_num
  · unfold specMaxWorkers
    norm_num
  · unfold MAX_WORKERS specMaxWorkers
    norm_num
  · rfl

/-- Claim C8: the locked-file copy is attempted at most `max_retries = 3`
times, sleeping at most 2 back-off delays; when every attempt hits a
transient lock error the delays slept are exactly `[0.5, 1.0]` (starting at
0.5 and doubling), after which the raw-copy fallback decides the outcome:
fallback success proceeds, fallback failure yields a `(False, diagnostic)`
return — and a non-transient error on the first attempt also yields a
`(False, diagnostic)` return via the outer handler, so the copy phase never
raises out of the function. -/
theorem C8_retry_backoff_and_fallback (env : CopyEnv) :
    (copyWithRetry env).2.length ≤ max_retries - 1 ∧
    ((∀ a, env.attemptResult a = AttemptResult.transient) →
      (copyWithRetry env).2 = [1 / 2, 1] ∧
      (∀ e, env.fallback = Except.error e →
        copyWithRetry env =
          (CopyPhase.failed ("File is in use and cannot be accessed: " ++ e), [1 / 2, 1]) ∧
        copyPhaseReturn (copyWithRetry env).1 =
          some (false, "File is in use and cannot be accessed: " ++ e)) ∧
      (∀ u, env.fallback = Except.ok u →
        copyWithRetry env = (CopyPhase.fallbackCopied, [1 / 2, 1]))) ∧
    (∀ e, env.attemptResult 0 = AttemptResult.fatal e →
      copyPhaseReturn (copyWithRetry env).1 =
        some (false, "Error during conversion: " ++ e)) := by
  have hshow : copyWithRetry env = copyLoop env [0, 1, 2] (1 / 2) := rfl
  refine ⟨?_, ?_, ?_⟩
  · rw [hshow]
    cases h0 : env.attemptResult 0 <;>
      cases h1 : env.attemptResult 1 <;>
        cases h2 : env.attemptResult 2 <;>
          cases hfb : env.fallback <;>
            simp [copyLoop, h0, h1, h2, hfb, max_retries]
  · intro hAll
    have h0 := hAll 0
    have h1 := hAll 1
    have h2 := hAll 2
    have key : ∀ r, env.fallback = r → copyWithRetry env =
        ((match r with
          | Except.ok _ => CopyPhase.fallbackCopied
          | Except.error e =>
            CopyPhase.failed ("File is in use and cannot be accessed: " ++ e)),
         [1 / 2, 1]) := by
      intro r hr
      rw [hshow]
      cases r with
      | ok u =>
        simp only [copyLoop, h0, h1, h2, hr, max_retries]
        norm_num
      | error e =>
        simp only [copyLoop, h0, h1, h2, hr, max_retries]
        norm_num
    refine ⟨?_, ?_, ?_⟩
    · rw [key env.fallback rfl]
    · intro e he
      have hk := key (Except.error e) he
      refine ⟨hk, ?_⟩
      rw [hk]
      rfl
    · intro u hu
      exact key (Except.ok u) hu
  · intro e he
    rw [hshow]
    simp [copyLoop, he, copyPhaseReturn]

/-- Witness for C8 at `envLocked`. -/
theorem C8_witness :
    copyWithRetry envLocked =
      (CopyPhase.failed ("File is in use and cannot be accessed: " ++ "locked"),
       [1 / 2, 1]) :=
  (((C8_retry_backoff_and_fallback envLocked).2.1 (fun _ => rfl)).2.1 "locked" rfl).1

/-- Claim C10: calling `batch_convert` with an empty `file_paths` list and
default `max_workers = None` derives `min(cpu_count, 0) = 0`, an invalid pool
capacity, so the call raises `ValueError` instead of returning an empty
result dictionary. -/
theorem C10_empty_batch_raises (cpuCount : Nat) (convertOne : String → Bool × String) :
    batchDefaultWorkers cpuCount [] = 0 ∧
    batch_convert cpuCount [] none convertOne =
      Except.error "max_workers must be greater than 0" := by
  constructor
  · simp [batchDefaultWorkers]
  · simp [batch_convert]

/-- Witness for C10 at `cpuCount = 4` and a trivial collaborator. -/
theorem C10_witness :
    batch_convert 4 [] none (fun _ => (true, "")) =
      Except.error "max_workers must be greater than 0" :=
  (C10_empty_batch_raises 4 (fun _ => (true, ""))).2

theorem poolInv_init (N : Nat) : PoolInv N PoolState.init := by
  exact ⟨by simp [PoolState.init], fun j => by simp [PoolState.init]⟩

theorem poolInv_step (N : Nat) (s t : PoolState) (hstep : PoolStep N s t)
    (hinv : PoolInv N s) : PoolInv N t := by
  obtain ⟨hlen, hcnt⟩ := hinv
  cases hstep with
  | submit j =>
    refine ⟨hlen, fun x => ?_⟩
    have h := hcnt x
    simp only [List.count_append, List.count_cons, List.count_nil, beq_iff_eq]
    by_cases hx : x = j <;> simp [hx] at h ⊢ <;> omega
  | start j rest hpend hlt =>
    refine ⟨by simp only [List.length_append, List.length_cons, List.length_nil]; omega, fun x => ?_⟩
    have h := hcnt x
    rw [hpend] at h
    simp only [List.count_append, List.count_cons, List.count_nil, beq_iff_eq] at h ⊢
    by_cases hx : x = j <;> simp [hx] at h ⊢ <;> omega
  | finish j pre post hrun =>
    have hlen2 : (pre ++ j :: post).length ≤ N := by rw [← hrun]; exact hlen
    refine ⟨?_, fun x => ?_⟩
    · simp only [List.length_append, List.length_cons] at hlen2 ⊢
      omega
    · have h := hcnt x
      rw [hrun] at h
      simp only [List.count_append, List.count_cons, List.count_nil, beq_iff_eq] at h ⊢
      by_cases hx : x = j <;> simp [hx] at h ⊢ <;> omega

theorem poolInv_reach (N : Nat) (s : PoolState) (h : PoolReach N s) : PoolInv N s := by
  induction h with
  | refl => exact poolInv_init N
  | tail hab hbc ih => exact poolInv_step N _ _ hbc ih

/-- Claim C9: in every reachable pool state, at most N jobs run
concurrently; submission is always enabled without blocking; the pending,
running and finished jobs account exactly for every submission (no job
dropped or duplicated); once the pool drains, every submitted job has
finished exactly as often as it was submitted; and while it has not drained,
a non-submission step is always enabled, so work can always progress. -/
theorem C9_pool_bounded_lossless (N : Nat) (s : PoolState) (hN : 1 ≤ N)
    (hreach : PoolReach N s) :
    s.running.length ≤ N ∧
    (∀ j, s.pending.count j + s.running.count j + s.finished.count j
      = s.submitted.count j) ∧
    (∀ j, PoolStep N s ⟨s.pending ++ [j], s.running, s.finished, s.submitted ++ [j]⟩) ∧
    (s.pending = [] → s.running = [] →
      ∀ j, s.finished.count j = s.submitted.count j) ∧
    (¬ (s.pending = [] ∧ s.running = []) →
      ∃ t, PoolStep N s t ∧ t.submitted = s.submitted) := by
  obtain ⟨hlen, hcnt⟩ := poolInv_reach N s hreach
  refine ⟨hlen, hcnt, fun j => PoolStep.submit s j, ?_, ?_⟩
  · intro hp hr j
    have h := hcnt j
    rw [hp, hr] at h
    simpa using h
  · intro hnot
    cases hrun : s.running with
    | cons r rs =>
      exact ⟨_, PoolStep.finish s r [] rs (by rw [hrun]; rfl), rfl⟩
    | nil =>
      have hp : s.pending ≠ [] := by
        intro hp
        exact hnot ⟨hp, hrun⟩
      cases hpend : s.pending with
      | nil => exact absurd hpend hp
      | cons q qs =>
        refine ⟨_, PoolStep.start s q qs hpend ?_, rfl⟩
        rw [hrun]
        simpa using hN

/-- Witness for C9: the pool with capacity 1 reaches `poolFinal` by
submit, start, finish of job 0, and the theorem's conclusions hold there. -/
theorem C9_witness :
    poolFinal.running.length ≤ 1 ∧
    (∀ j, poolFinal.pending.count j + poolFinal.running.count j +
      poolFinal.finished.count j = poolFinal.submitted.count j) ∧
    (∀ j, PoolStep 1 poolFinal
      ⟨poolFinal.pending ++ [j], poolFinal.running, poolFinal.finished,
       poolFinal.submitted ++ [j]⟩) ∧
    (poolFinal.pending = [] → poolFinal.running = [] →
      ∀ j, poolFinal.finished.count j = poolFinal.submitted.count j) ∧
    (¬ (poolFinal.pending = [] ∧ poolFinal.running = []) →
      ∃ t, PoolStep 1 poolFinal t ∧ t.submitted = poolFinal.submitted) := by
  have h1 : PoolStep 1 PoolState.init ⟨[0], [], [], [0]⟩ :=
    PoolStep.submit PoolState.init 0
  have h2 : PoolStep 1 ⟨[0], [], [], [0]⟩ ⟨[], [0], [], [0]⟩ :=
    PoolStep.start ⟨[0], [], [], [0]⟩ 0 [] rfl (by decide)
  have h3 : PoolStep 1 ⟨[], [0], [], [0]⟩ poolFinal :=
    PoolStep.finish ⟨[], [0], [], [0]⟩ 0 [] [] rfl
  have hreach : PoolReach 1 poolFinal :=
    Relation.ReflTransGen.tail
      (Relation.ReflTransGen.tail (Relation.ReflTransGen.single h1) h2) h3
  exact C9_pool_bounded_lossless 1 poolFinal (by decide) hreach

theorem filter_eq_append_cons_split {α : Type} (p : α → Bool) (l : List α)
    (x y : List α) (a : α) (h : l.filter p = x ++ a :: y) :
    ∃ pre suf, l = pre ++ a :: suf ∧ pre.filter p = x ∧ suf.filter p = y := by
  induction l generalizing x with
  | nil => simp at h
  | cons hd tl ih =>
    by_cases hp : p hd
    · rw [List.filter_cons_of_pos hp] at h
      cases x with
      | nil =>
        simp only [List.nil_append] at h
        injection h with h1 h2
        refine ⟨[], tl, ?_, rfl, h2⟩
        rw [h1]
        rfl
      | cons x0 xs =>
        simp only [List.cons_append] at h
        injection h with h1 h2
        obtain ⟨pre, suf, he, hx, hy⟩ := ih xs h2
        refine ⟨hd :: pre, suf, by rw [List.cons_append, he], ?_, hy⟩
        rw [List.filter_cons_of_pos hp, hx, h1]
    · rw [List.filter_cons_of_neg hp] at h
      obtain ⟨pre, suf, he, hx, hy⟩ := ih x h
      exact ⟨hd :: pre, suf, by rw [List.cons_append, he],
        by rw [List.filter_cons_of_neg hp, hx], hy⟩

theorem mem_adminSeq_uq (n i : Nat) : Ev.uq i ∈ adminSeq n ↔ i < n := by
  induction n with
  | zero => simp [adminSeq]
  | succ m ih =>
    rw [adminSeq, List.mem_append, ih]
    simp only [List.mem_cons, List.not_mem_nil, or_false, Ev.uq.injEq]
    have hno : ¬ Ev.uq i = Ev.sub m := by simp
    constructor
    · rintro (h | h | h)
      · omega
      · omega
      · exact absurd h hno
    · intro h
      by_cases hm : i < m
      · exact Or.inl hm
      · exact Or.inr (Or.inl (by omega))

theorem mem_adminSeq_sub (n i : Nat) : Ev.sub i ∈ adminSeq n ↔ i < n := by
  induction n with
  | zero => simp [adminSeq]
  | succ m ih =>
    rw [adminSeq, List.mem_append, ih]
    simp only [List.mem_cons, List.not_mem_nil, or_false, Ev.sub.injEq]
    have hno : ¬ Ev.sub i = Ev.uq m := by simp
    constructor
    · rintro (h | h | h)
      · omega
      · exact absurd h hno
      · omega
    · intro h
      by_cases hm : i < m
      · exact Or.inl hm
      · exact Or.inr (Or.inr (by omega))

theorem adminSeq_split (n i : Nat) (hi : i < n) :
    ∃ x y, adminSeq n = x ++ Ev.uq i :: Ev.sub i :: y ∧ Ev.sub i ∉ x := by
  induction n with
  | zero => omega
  | succ m ih =>
    by_cases him : i < m
    · obtain ⟨x, y, he, hs⟩ := ih him
      refine ⟨x, y ++ [Ev.uq m, Ev.sub m], ?_, hs⟩
      rw [adminSeq, he]
      simp
    · have him2 : i = m := by omega
      subst him2
      refine ⟨adminSeq i, [], rfl, ?_⟩
      rw [mem_adminSeq_sub]
      omega

theorem precedes_of_filter (p : Ev → Bool) (tr x y : List Ev) (a b : Ev)
    (h : tr.filter p = x ++ a :: y) (hb : p b = true) (hbx : b ∉ x) (hba : b ≠ a) :
    Precedes tr a b := by
  obtain ⟨pre, suf, he, hx, hy⟩ := filter_eq_append_cons_split p tr x y a h
  refine ⟨pre ++ [a], suf, by rw [he]; simp, by simp, ?_⟩
  intro hmem
  rcases List.mem_append.mp hmem with hpre | hsing
  · exact hbx (by rw [← hx]; exact List.mem_filter.mpr ⟨hpre, hb⟩)
  · exact hba (by simpa using hsing)

theorem applyEv_preserves_some (pathOf : Nat → String) (term : Nat → JobRecord)
    (st : String → Option JobRecord) (e : Ev) (q : String)
    (h : (st q).isSome = true) : ((applyEv pathOf term st e) q).isSome = true := by
  cases e with
  | uq i => by_cases hq : q = pathOf i <;> simp [applyEv, hq, h]
  | sub i => simpa [applyEv] using h
  | proc i => by_cases hq : q = pathOf i <;> simp [applyEv, hq, h]
  | done i => by_cases hq : q = pathOf i <;> simp [applyEv, hq, h]

theorem foldl_isSome_of_uq_mem (pathOf : Nat → String) (term : Nat → JobRecord)
    (tr : List Ev) (st : String → Option JobRecord) (i : Nat)
    (h : Ev.uq i ∈ tr ∨ (st (pathOf i)).isSome = true) :
    ((tr.foldl (applyEv pathOf term) st) (pathOf i)).isSome = true := by
  induction tr generalizing st with
  | nil =>
    rcases h with h | h
    · exact absurd h (by simp)
    · simpa using h
  | cons e rest ih =>
    rw [List.foldl_cons]
    rcases h with hmem | hsome
    · rcases List.mem_cons.mp hmem with heq | hmem2
      · apply ih
        right
        rw [← heq]
        simp [applyEv]
      · exact ih _ (Or.inl hmem2)
    · exact ih _ (Or.inr (applyEv_preserves_some pathOf term st e (pathOf i) hsome))

/-- Claim C3 (amended): in every trace whose admission has completed, the
Queued write of each resolved path precedes the handing of its job to the
pool, and after the call returns every resolved path is present in the
status store — but not necessarily still in state Queued (see the
counterexample): a job that already ran may have overwritten it. -/
theorem C3_queued_precedes_submit (pathOf : Nat → String) (term : Nat → JobRecord)
    (n : Nat) (tr : List Ev) (hv : ValidTrace n tr) (i : Nat) (hi : i < n) :
    Precedes tr (Ev.uq i) (Ev.sub i) ∧
    (runTrace pathOf term tr (pathOf i)).isSome = true := by
  constructor
  · obtain ⟨x, y, he, hs⟩ := adminSeq_split n i hi
    refine precedes_of_filter isAdminEv tr x (Ev.sub i :: y) (Ev.uq i) (Ev.sub i)
      ?_ rfl hs (by simp)
    rw [hv.admin, he]
  · have hmem : Ev.uq i ∈ tr :=
      List.mem_of_mem_filter (a := Ev.uq i)
        (by rw [hv.admin]; exact (mem_adminSeq_uq n i).mpr hi)
    exact foldl_isSome_of_uq_mem pathOf term tr _ i (Or.inl hmem)

/-- Claim C3 counterexample: `trTwo` is a valid complete-admission trace of a
two-file batch, yet immediately after the call returns the status read shows
path "p1" in state Completed, not Queued — the jobs run concurrently with
the admission loop, so "every resolved path shows Queued right after
submission returns" does not hold. -/
theorem C3_counterexample :
    ValidTrace 2 trTwo ∧
    runTrace pathOfTwo termTwo trTwo "p1" = some ⟨JobState.Completed, "converted"⟩ ∧
    JobState.Completed ≠ JobState.Queued := by
  refine ⟨⟨?_, ?_, ?_, ?_⟩, by decide, by decide⟩
  · decide
  · intro i
    by_cases h0 : i = 0
    · subst h0
      exact ⟨2, by decide⟩
    · refine ⟨0, ?_⟩
      have h0f : (0 == i) = false := by
        simp only [beq_eq_false_iff_ne, ne_eq]
        omega
      simp [trTwo, List.filter, isJobEv, h0f, jobSeq]
  · intro i hni
    have h0f : (0 == i) = false := by
      simp only [beq_eq_false_iff_ne, ne_eq]
      omega
    simp [trTwo, List.filter, isJobEv, h0f]
  · intro i hmem
    have hi0 : i = 0 := by
      simp only [trTwo, List.mem_cons, List.not_mem_nil, or_false] at hmem
      rcases hmem with h | h | h | h | h | h
      · exact absurd h (by simp)
      · exact absurd h (by simp)
      · injection h
      · exact absurd h (by simp)
      · exact absurd h (by simp)
      · exact absurd h (by simp)
    subst hi0
    exact ⟨[Ev.uq 0, Ev.sub 0], [Ev.proc 0, Ev.done 0, Ev.uq 1, Ev.sub 1],
      rfl, by decide, by decide⟩

/-- Witness for C3 (amended): a one-file batch whose trace is just its
admission events. -/
theorem C3_witness :
    Precedes [Ev.uq 0, Ev.sub 0] (Ev.uq 0) (Ev.sub 0) ∧
    (runTrace pathOfTwo termTwo [Ev.uq 0, Ev.sub 0] (pathOfTwo 0)).isSome = true := by
  have hv : ValidTrace 1 [Ev.uq 0, Ev.sub 0] := by
    refine ⟨by decide, fun i => ⟨0, rfl⟩, fun i _ => rfl, fun i hmem => ?_⟩
    simp at hmem
  exact C3_queued_precedes_submit pathOfTwo termTwo 1 [Ev.uq 0, Ev.sub 0] hv 0 (by omega)

/-- Witness for C7 (amended): in `fsSubdir`, the path `d/sub.pdf` is in the
expansion of directory `d` via the membership characterization. -/
theorem C7_witness :
    "d/sub.pdf" ∈ dirExpand fsSubdir "d" :=
  (C7_dir_expansion fsSubdir "d" "d/sub.pdf").mpr
    ⟨"sub.pdf", by decide, by decide, Or.inl (by decide)⟩

end Markitdown
